import Mathlib

/-!
Verification of the fractal_explorer core: the view-transform algebra of
`src/fractal_view.rs` / `src/main.rs` / `src/controls.rs`, and the per-pixel
fractal kernels.  The cgmath `Matrix3<f32>` algebra is embedded over `ℚ`
(exact arithmetic; every exact equality proved here in particular holds
within any floating-point tolerance named by the specification).
-/

namespace FractalExplorer

/- Batteries marks the `Rat` arithmetic operations `@[irreducible]`, which
blocks `decide`-style evaluation; restore semireducibility locally. -/
attribute [local semireducible] Rat.add Rat.mul Rat.sub Rat.inv

/-- Homogeneous 2-D vector, the `cgmath::Vector3<f32>` used by the view code. -/
structure Vec3 where
  x : ℚ
  y : ℚ
  z : ℚ
deriving DecidableEq, Repr

/-- 3×3 matrix over ℚ, embedding `cgmath::Matrix3<f32>`.  Field `aij` is the
entry in row `i`, column `j` of the usual mathematical (row, column)
presentation; cgmath's internal column-major storage is a layout detail with
the same algebra. -/
structure Mat3 where
  a00 : ℚ
  a01 : ℚ
  a02 : ℚ
  a10 : ℚ
  a11 : ℚ
  a12 : ℚ
  a20 : ℚ
  a21 : ℚ
  a22 : ℚ
deriving DecidableEq, Repr

/-- Matrix product, as cgmath's `Matrix3 * Matrix3`. -/
def Mat3.mul (A B : Mat3) : Mat3 where
  a00 := A.a00 * B.a00 + A.a01 * B.a10 + A.a02 * B.a20
  a01 := A.a00 * B.a01 + A.a01 * B.a11 + A.a02 * B.a21
  a02 := A.a00 * B.a02 + A.a01 * B.a12 + A.a02 * B.a22
  a10 := A.a10 * B.a00 + A.a11 * B.a10 + A.a12 * B.a20
  a11 := A.a10 * B.a01 + A.a11 * B.a11 + A.a12 * B.a21
  a12 := A.a10 * B.a02 + A.a11 * B.a12 + A.a12 * B.a22
  a20 := A.a20 * B.a00 + A.a21 * B.a10 + A.a22 * B.a20
  a21 := A.a20 * B.a01 + A.a21 * B.a11 + A.a22 * B.a21
  a22 := A.a20 * B.a02 + A.a21 * B.a12 + A.a22 * B.a22

instance : Mul Mat3 := ⟨Mat3.mul⟩

/-- Matrix–vector application, as cgmath's `Matrix3 * Vector3` (column
vectors). -/
def Mat3.apply (A : Mat3) (v : Vec3) : Vec3 where
  x := A.a00 * v.x + A.a01 * v.y + A.a02 * v.z
  y := A.a10 * v.x + A.a11 * v.y + A.a12 * v.z
  z := A.a20 * v.x + A.a21 * v.y + A.a22 * v.z

/-- Determinant of a 3×3 matrix. -/
def Mat3.det (A : Mat3) : ℚ :=
  A.a00 * (A.a11 * A.a22 - A.a12 * A.a21)
    - A.a01 * (A.a10 * A.a22 - A.a12 * A.a20)
    + A.a02 * (A.a10 * A.a21 - A.a11 * A.a20)

/-- `cgmath::Matrix3::from_scale(s)`: uniform 2-D scale in homogeneous
coordinates. -/
def from_scale (s : ℚ) : Mat3 :=
  ⟨s, 0, 0, 0, s, 0, 0, 0, 1⟩

/-- `cgmath::Matrix3::from_translation(v)`: 2-D translation in homogeneous
coordinates. -/
def from_translation (v : ℚ × ℚ) : Mat3 :=
  ⟨1, 0, v.1, 0, 1, v.2, 0, 0, 1⟩

/-- `ORIGINAL_VIEWPORT_WIDTH` from src/fractal_view.rs line 11. -/
def ORIGINAL_VIEWPORT_WIDTH : ℚ := 4

/-- The state of `View` (src/fractal_view.rs) that the claims concern: the
view transform, the fragment entry point selected into the render pipeline,
and the transform last written to the uniform buffer.  The GPU resource
handles carried by the Rust struct have no algebraic content. -/
structure View where
  viewTransform : Mat3
  pipelineEntryPoint : String
  uniformContents : Mat3
deriving DecidableEq, Repr

/-- The fractal-type enumeration from src/controls.rs. -/
inductive FractalType where
  | Mandelbrot
  | Newton
deriving DecidableEq, Repr

/-- `View::entry_point_for_fractal_type` (src/fractal_view.rs lines 204-209). -/
def entry_point_for_fractal_type : FractalType → String
  | FractalType.Mandelbrot => "mandelbrot"
  | FractalType.Newton => "newton"

/-- The initial view transform of `View::new` (src/fractal_view.rs lines
43-44): `Matrix3::from_scale(2.0) * Matrix3::from_translation((-0.25, 0.0))`. -/
def initial_view_transform : Mat3 :=
  from_scale 2 * from_translation (-(1/4 : ℚ), 0)

/-- `View::new` (src/fractal_view.rs lines 28-98), restricted to the modelled
fields; the pipeline is initially built for the Mandelbrot entry point. -/
def View.new : View where
  viewTransform := initial_view_transform
  pipelineEntryPoint := entry_point_for_fractal_type FractalType.Mandelbrot
  uniformContents := initial_view_transform

/-- The transform update of `View::translate` (src/fractal_view.rs lines
131-134). -/
def translateTransform (T : Mat3) (displacement : ℚ × ℚ) : Mat3 :=
  T * from_translation
    (ORIGINAL_VIEWPORT_WIDTH * displacement.1, ORIGINAL_VIEWPORT_WIDTH * displacement.2)

/-- `View::translate` (src/fractal_view.rs lines 131-134). -/
def View.translate (v : View) (displacement : ℚ × ℚ) : View :=
  { v with viewTransform := translateTransform v.viewTransform displacement }

/-- The transform update of `View::zoom` (src/fractal_view.rs lines 136-141):
`T * from_translation(W/2 * on_point) * from_scale(factor) *
from_translation(-W/2 * on_point)` with `W = ORIGINAL_VIEWPORT_WIDTH`. -/
def zoomTransform (T : Mat3) (factor : ℚ) (on_point : ℚ × ℚ) : Mat3 :=
  T * from_translation
      (ORIGINAL_VIEWPORT_WIDTH / 2 * on_point.1, ORIGINAL_VIEWPORT_WIDTH / 2 * on_point.2)
    * from_scale factor
    * from_translation
      (-ORIGINAL_VIEWPORT_WIDTH / 2 * on_point.1, -ORIGINAL_VIEWPORT_WIDTH / 2 * on_point.2)

/-- `View::zoom` (src/fractal_view.rs lines 136-141). -/
def View.zoom (v : View) (factor : ℚ) (on_point : ℚ × ℚ) : View :=
  { v with viewTransform := zoomTransform v.viewTransform factor on_point }

/-- `View::set_fractal_type` (src/fractal_view.rs lines 147-155): rebuilds the
pipeline with the entry point for the new fractal type; no other field is
assigned. -/
def View.set_fractal_type (v : View) (fractal_type : FractalType) : View :=
  { v with pipelineEntryPoint := entry_point_for_fractal_type fractal_type }

/-- `View::update_transform` (src/fractal_view.rs lines 123-129): writes the
current view transform to the uniform buffer. -/
def View.update_transform (v : View) : View :=
  { v with uniformContents := v.viewTransform }

/-- `map_point` of spec §4.4: apply the transform to the homogeneous vector
`(x, y, 1)` of a point in normalized device coordinates. -/
def map_point (T : Mat3) (p : ℚ × ℚ) : ℚ × ℚ :=
  let u := T.apply ⟨p.1, p.2, 1⟩
  (u.x, u.y)

/-- `ZOOM_SCROLL_FACTOR` from src/main.rs line 35. -/
def ZOOM_SCROLL_FACTOR : ℚ := 40

/-- The zoom factor computed by the event loop (src/main.rs line 167):
`factor = y / ZOOM_SCROLL_FACTOR + 1.0`. -/
def zoom_factor_of_scroll (y : ℚ) : ℚ := y / ZOOM_SCROLL_FACTOR + 1

/-- A navigation gesture as dispatched by the event loop in src/main.rs lines
154-180: a pan with a normalized displacement, or a zoom with a raw scroll
delta and a normalized anchor. -/
inductive NavOp where
  | pan (displacement : ℚ × ℚ)
  | zoomScroll (y : ℚ) (on_point : ℚ × ℚ)
deriving DecidableEq, Repr

/-- One step of the event loop's message handling (src/main.rs lines 154-180)
as it acts on the view state. -/
def applyNavOp (v : View) : NavOp → View
  | NavOp.pan d => v.translate d
  | NavOp.zoomScroll y a => v.zoom (zoom_factor_of_scroll y) a

/-- A whole session: the initial view followed by any sequence of gestures. -/
def applyNavOps (v : View) (ops : List NavOp) : View :=
  ops.foldl applyNavOp v

/-- The cursor readout drawn by `FractalCanvas::draw` (src/controls.rs lines
134-161): the cursor position is normalized to device coordinates, mapped
through the view transform, and displayed as `x + (-y)i`.  The result is the
pair (real part shown, imaginary part shown). -/
def cursor_readout (T : Mat3) (width height cx cy : ℚ) : ℚ × ℚ :=
  let t := T.apply ⟨cx / width * 2 - 1, cy / height * 2 - 1, 1⟩
  (t.x, -t.y)

/-! ### The per-pixel fractal kernels

The fragment shader `src/shader/frag.wgsl` referenced by src/fractal_view.rs
line 76 is not part of the sources; the kernels below are reconstructed from
the specification (§4.1-§4.3) and exercised exactly as the shader tests in
src/fractal_view.rs lines 263-509 exercise the shader entry points.  Complex
numbers are pairs (re, im) over ℚ. -/

/-- Componentwise sum of two complex numbers. -/
def cadd (a b : ℚ × ℚ) : ℚ × ℚ := (a.1 + b.1, a.2 + b.2)

/-- Componentwise difference of two complex numbers. -/
def csub (a b : ℚ × ℚ) : ℚ × ℚ := (a.1 - b.1, a.2 - b.2)

/-- Modelled from the spec: `multiply(a, b)` of §4.1 (standard complex
product); the shader source frag.wgsl is missing from src/. -/
def multiply (a b : ℚ × ℚ) : ℚ × ℚ :=
  (a.1 * b.1 - a.2 * b.2, a.1 * b.2 + a.2 * b.1)

/-- Modelled from the spec: `squared_magnitude(a)` of §4.1; the shader source
frag.wgsl is missing from src/. -/
def squared_magnitude (a : ℚ × ℚ) : ℚ := a.1 * a.1 + a.2 * a.2

/-- Modelled from the spec: `inverse(a) = conjugate(a) / squared_magnitude(a)`
of §4.1; the shader source frag.wgsl is missing from src/. -/
def inverse (a : ℚ × ℚ) : ℚ × ℚ :=
  (a.1 / squared_magnitude a, -a.2 / squared_magnitude a)

/-- Modelled from the spec: `eval_poly(point, coefficients)` of §4.2,
Horner-style evaluation over coefficients ordered ascending by degree; the
shader source frag.wgsl is missing from src/. -/
def eval_poly (z : ℚ × ℚ) (coefficients : List (ℚ × ℚ)) : ℚ × ℚ :=
  coefficients.foldr (fun c acc => cadd (multiply acc z) c) (0, 0)

/-- Modelled from the spec: the coefficient sequence of `z³ − 1` (§3,
low-to-high degree); the shader source frag.wgsl is missing from src/. -/
def COEFFS : List (ℚ × ℚ) := [(-1, 0), (0, 0), (0, 0), (1, 0)]

/-- Modelled from the spec: the coefficient sequence of the derivative `3z²`
(§3, low-to-high degree); the shader source frag.wgsl is missing from src/. -/
def DERIVATIVE_COEFFS : List (ℚ × ℚ) := [(0, 0), (0, 0), (3, 0)]

/-- Modelled from the spec: one Newton–Raphson step
`z ← z − eval_poly(z, COEFFS) * inverse(eval_poly(z, DERIVATIVE_COEFFS))`
(§4.3); the shader source frag.wgsl is missing from src/. -/
def newton_step (z : ℚ × ℚ) : ℚ × ℚ :=
  csub z (multiply (eval_poly z COEFFS) (inverse (eval_poly z DERIVATIVE_COEFFS)))

/-- Modelled from the spec: the Newton kernel runs a fixed,
non-convergence-checked number of steps (§4.3).  The spec does not name the
count; the model fixes 8 steps. -/
def NEWTON_STEP_COUNT : ℕ := 8

/-- `newton_step` iterated a given number of times. -/
def newton_orbit : ℕ → (ℚ × ℚ) → ℚ × ℚ
  | 0, z => z
  | n + 1, z => newton_orbit n (newton_step z)

/-- Modelled from the spec: `newton_iterate` (the shader function exercised by
the test in src/fractal_view.rs lines 475-509) runs `NEWTON_STEP_COUNT` Newton
steps from the mapped pixel coordinate; the shader source frag.wgsl is missing
from src/. -/
def newton_iterate (z : ℚ × ℚ) : ℚ × ℚ := newton_orbit NEWTON_STEP_COUNT z

/-- Modelled from the spec: the Mandelbrot transition `z ← z² + c` (§4.3); the
shader source frag.wgsl is missing from src/. -/
def mandelbrot_step (c z : ℚ × ℚ) : ℚ × ℚ := cadd (multiply z z) c

/-- The Mandelbrot escape loop: with `k` iterations of budget left at current
state `z`, return 0 if the budget is exhausted without
`squared_magnitude(z) > 4`, else the amount of budget remaining at the escape
check that fired. -/
def mandelbrot_go (c : ℚ × ℚ) : ℕ → (ℚ × ℚ) → ℕ
  | 0, _ => 0
  | k + 1, z =>
    if 4 < squared_magnitude z then k + 1 else mandelbrot_go c k (mandelbrot_step c z)

/-- Modelled from the spec: `mandelbrot_iterations(c)` (the shader function
exercised by the tests in src/fractal_view.rs lines 296-367) starts from
`z = c`, iterates `z ← z² + c` until `squared_magnitude(z) > 4.0` or the
budget is exhausted, and reports the normalized escape count: 0 when the
budget is exhausted without escape, tending to 1 for immediate escape; the
shader source frag.wgsl is missing from src/.  The budget is left as a
parameter since the spec does not name it. -/
def mandelbrot_iterations (budget : ℕ) (c : ℚ × ℚ) : ℚ :=
  (mandelbrot_go c budget c : ℚ) / (budget : ℚ)

/-- The exact Mandelbrot orbit from an arbitrary start `z`. -/
def mandelbrot_orbit_from (c z : ℚ × ℚ) : ℕ → ℚ × ℚ
  | 0 => z
  | n + 1 => mandelbrot_step c (mandelbrot_orbit_from c z n)

/-! ### Certified enclosure of the Mandelbrot orbit of (-0.5, 0.5)

To prove that the interior sample point never escapes (for any iteration
budget), the exact orbit is tracked by a computable shadow orbit of rationals
with bounded denominators together with a certified error radius, and after
280 certified steps it is handed over to an invariant disk around the
attracting fixed point of `z ← z² + c`. -/

/-- The interior sample point `(-0.5, 0.5)` of the Mandelbrot test. -/
def C_IN : ℚ × ℚ := (-(1/2 : ℚ), 1/2)

/-- The exterior sample point `(0.5, 0.6)` of the Mandelbrot test. -/
def C_OUT : ℚ × ℚ := (1/2, 3/5)

/-- Denominator bound used when rounding shadow-orbit values. -/
def RND_DEN : ℕ := 2 ^ 64

/-- Round a rational down onto the grid with denominator `RND_DEN`. -/
def rnd (q : ℚ) : ℚ := mkRat (q.num * (RND_DEN : ℤ) / (q.den : ℤ)) RND_DEN

/-- Round a rational up onto the grid with denominator `RND_DEN`. -/
def rnd_up (q : ℚ) : ℚ := -rnd (-q)

/-- Newton iteration for integer square roots, with explicit fuel so that it
is structurally recursive. -/
def isqrt_iter (n : ℕ) : ℕ → ℕ → ℕ
  | 0, g => g
  | fuel + 1, g =>
    let g' := (g + n / g) / 2
    if g' < g then isqrt_iter n fuel g' else g

/-- An integer upper bound for the square root: `n < (nat_sqrt_ub n)^2`. -/
def nat_sqrt_ub (n : ℕ) : ℕ := isqrt_iter n n n + 1

/-- Scale used for rational square-root upper bounds. -/
def SQRT_SCALE : ℕ := 2 ^ 32

/-- A rational upper bound for the square root of a nonnegative rational:
`q ≤ (sqrt_ub q)^2`. -/
def sqrt_ub (q : ℚ) : ℚ :=
  (nat_sqrt_ub (q.num.toNat * SQRT_SCALE ^ 2 / q.den) : ℚ) / (SQRT_SCALE : ℚ)

/-- A certified enclosure of one exact orbit point: a concrete shadow value
`w` and an error radius `e` with `|z - w| ≤ e` for the exact point `z`. -/
structure Cert where
  w : ℚ × ℚ
  e : ℚ
deriving DecidableEq, Repr

/-- Modulus bound for the per-component rounding error of one shadow step. -/
def RND_ERR : ℚ := 3 / (2 * (RND_DEN : ℚ))

/-- Advance the certified enclosure by one Mandelbrot step at `C_IN`: the
shadow value is the rounded image of the old shadow value, and the error
radius grows by the Lipschitz bound `|z² - w²| ≤ |z - w| (2|w| + |z - w|)`
plus the rounding error. -/
def certStep (cert : Cert) : Cert :=
  let u := mandelbrot_step C_IN cert.w
  let s := sqrt_ub (squared_magnitude cert.w)
  { w := (rnd u.1, rnd u.2)
    e := rnd_up (cert.e * (2 * s + cert.e) + RND_ERR) }

/-- Check that every exact point enclosed by `cert` has squared magnitude at
most 4 (no escape at this step). -/
def certOk (cert : Cert) : Bool :=
  decide ((sqrt_ub (squared_magnitude cert.w) + cert.e) ^ 2 ≤ 4)

/-- Rational approximation of the attracting fixed point
`(1 - sqrt(3 - 2i)) / 2 ≈ (-0.40867701, 0.27512526)` of `z ← z² + C_IN`. -/
def P_CENTER : ℚ × ℚ := (-(40867701 / 100000000 : ℚ), 27512526 / 100000000)

/-- Radius of the invariant disk around `P_CENTER`. -/
def DISK_RADIUS : ℚ := 1 / 128

/-- Check that every exact point enclosed by `cert` lies in the invariant
disk of radius `DISK_RADIUS` around `P_CENTER`. -/
def certFinal (cert : Cert) : Bool :=
  decide (cert.e ≤ DISK_RADIUS ∧
    squared_magnitude (csub cert.w P_CENTER) ≤ (DISK_RADIUS - cert.e) ^ 2)

/-- Run `k` certified steps, checking no-escape at each step and disk
membership at the end. -/
def certRun : ℕ → Cert → Bool
  | 0, cert => certFinal cert
  | k + 1, cert => certOk cert && certRun k (certStep cert)

/-- Number of certified steps before the orbit is inside the invariant disk. -/
def CERT_STEPS : ℕ := 280

/-- A gesture is nondegenerate when its zoom factor (as computed by the event
loop) is nonzero; pans are always nondegenerate. -/
def NavOp.nondegenerate : NavOp → Prop
  | NavOp.pan _ => True
  | NavOp.zoomScroll y _ => zoom_factor_of_scroll y ≠ 0

instance (op : NavOp) : Decidable op.nondegenerate :=
  match op with
  | NavOp.pan _ => Decidable.isTrue trivial
  | NavOp.zoomScroll y _ => inferInstanceAs (Decidable (zoom_factor_of_scroll y ≠ 0))

/-! ## Theorems -/

theorem Mat3.mul_def (A B : Mat3) : A * B = Mat3.mul A B := rfl

theorem Mat3.det_mul (A B : Mat3) : (A * B).det = A.det * B.det := by
  cases A
  cases B
  simp only [Mat3.mul_def, Mat3.mul, Mat3.det]
  ring

theorem det_from_translation (v : ℚ × ℚ) : (from_translation v).det = 1 := by
  simp only [from_translation, Mat3.det]
  ring

theorem det_from_scale (s : ℚ) : (from_scale s).det = s * s := by
  simp only [from_scale, Mat3.det]
  ring

theorem det_translateTransform (T : Mat3) (d : ℚ × ℚ) :
    (translateTransform T d).det = T.det := by
  rw [translateTransform, Mat3.det_mul, det_from_translation, mul_one]

theorem det_zoomTransform (T : Mat3) (f : ℚ) (a : ℚ × ℚ) :
    (zoomTransform T f a).det = T.det * (f * f) := by
  rw [zoomTransform, Mat3.det_mul, Mat3.det_mul, Mat3.det_mul, det_from_translation,
    det_from_scale, det_from_translation]
  ring

/-- C2 counterexample: applying the initial view transform to the screen
center (0,0) does not give (-0.25, 0); `from_scale 2` is applied after the
translation, so the translation is scaled as well. -/
theorem C2_counterexample :
    map_point initial_view_transform (0, 0) ≠ (-(1/4 : ℚ), 0) := by
  decide

/-- C2 (amended): applying the initial view transform
(`Scale(2) * Translate(-0.25, 0)`) to the normalized screen center (0,0)
yields the complex-plane point (-0.5, 0). -/
theorem C2_initial_transform_center :
    map_point initial_view_transform (0, 0) = (-(1/2 : ℚ), 0) := by
  decide

/-- C3: for every view state and every normalized displacement `d`, the pan
operation produces exactly the old transform composed on the right with
`Translate(4.0 * d)`, `4.0` being the fixed reference viewport width, as a
matrix equality. -/
theorem C3_translate_right_composes (v : View) (d : ℚ × ℚ) :
    (v.translate d).viewTransform =
      v.viewTransform * from_translation (4 * d.1, 4 * d.2) := rfl

/-- C4: for every view state, factor `f` and anchor `a`, the zoom operation
produces exactly `T ∘ Translate(k·a) ∘ Scale(f) ∘ Translate(−k·a)` with
`k = width/2 = 2.0`, the new operators composed on the right of the existing
transform. -/
theorem C4_zoom_composition (v : View) (f : ℚ) (a : ℚ × ℚ) :
    (v.zoom f a).viewTransform =
      v.viewTransform *
        (from_translation (2 * a.1, 2 * a.2) *
          (from_scale f * from_translation (-(2 * a.1), -(2 * a.2)))) := by
  obtain ⟨T, ep, u⟩ := v
  obtain ⟨t00, t01, t02, t10, t11, t12, t20, t21, t22⟩ := T
  simp only [View.zoom, zoomTransform, ORIGINAL_VIEWPORT_WIDTH, Mat3.mul_def, Mat3.mul,
    from_translation, from_scale, Mat3.mk.injEq]
  refine ⟨?_, ?_, ?_, ?_, ?_, ?_, ?_, ?_, ?_⟩ <;> ring

/-- C10: zooming with factor 1 about any anchor leaves the view state exactly
unchanged: `Translate(2·a) ∘ Scale(1) ∘ Translate(−2·a)` cancels to the
identity. -/
theorem C10_zoom_factor_one_identity (v : View) (a : ℚ × ℚ) : v.zoom 1 a = v := by
  obtain ⟨T, ep, u⟩ := v
  obtain ⟨t00, t01, t02, t10, t11, t12, t20, t21, t22⟩ := T
  simp only [View.zoom, zoomTransform, ORIGINAL_VIEWPORT_WIDTH, Mat3.mul_def, Mat3.mul,
    from_translation, from_scale, View.mk.injEq, Mat3.mk.injEq, and_true]
  refine ⟨?_, ?_, ?_, ?_, ?_, ?_, ?_, ?_, ?_⟩ <;> ring

/-- C1 counterexample: at the initial transform with factor 2 and anchor
(0.5, 0), `map_point(zoom(T, f, a), a)` differs from `map_point(T, a)` by 1,
far beyond tolerance 1e-5: the anchor passed to zoom lives in the
[-0.5, 0.5]² normalized screen space while `map_point` takes [-1, 1]²
normalized device coordinates, so the fixed point sits at `2·a`, not `a`. -/
theorem C1_counterexample :
    ¬ squared_magnitude
        (csub (map_point (View.new.zoom 2 (1/2, 0)).viewTransform (1/2, 0))
          (map_point View.new.viewTransform (1/2, 0))) ≤ (1/100000 : ℚ) ^ 2 := by
  decide

/-- C1 (amended): for every view state, zoom factor and anchor `a` in the
[-0.5, 0.5]² normalized screen space, the anchor's normalized-device-coordinate
image `2·a` has its mapped complex-plane location unchanged by a zoom about
`a`, exactly (hence within any tolerance). -/
theorem C1_zoom_anchor_invariance (v : View) (f : ℚ) (a : ℚ × ℚ) :
    map_point (v.zoom f a).viewTransform (2 * a.1, 2 * a.2) =
      map_point v.viewTransform (2 * a.1, 2 * a.2) := by
  obtain ⟨T, ep, u⟩ := v
  obtain ⟨t00, t01, t02, t10, t11, t12, t20, t21, t22⟩ := T
  simp only [View.zoom, zoomTransform, ORIGINAL_VIEWPORT_WIDTH, Mat3.mul_def, Mat3.mul,
    from_translation, from_scale, map_point, Mat3.apply, Prod.mk.injEq]
  constructor <;> ring

/-- C6: in the cursor readout drawn by the canvas, the `y` component of the
transform-mapped cursor position is negated when reported as the imaginary
part: for a mapped point (x, y) the display shows x + (−y)i. -/
theorem C6_readout_negates_y (T : Mat3) (width height cx cy : ℚ) :
    cursor_readout T width height cx cy =
      ((map_point T (cx / width * 2 - 1, cy / height * 2 - 1)).1,
        -(map_point T (cx / width * 2 - 1, cy / height * 2 - 1)).2) := rfl

/-- C7: changing the active fractal type only rebuilds the pipeline entry
point; the view transform and the uniform-buffer contents (every other
modelled field of the view state) are unchanged. -/
theorem C7_set_fractal_type_only_pipeline (v : View) (t : FractalType) :
    (v.set_fractal_type t).pipelineEntryPoint = entry_point_for_fractal_type t ∧
      (v.set_fractal_type t).viewTransform = v.viewTransform ∧
      (v.set_fractal_type t).uniformContents = v.uniformContents :=
  ⟨rfl, rfl, rfl⟩

/-- C5 counterexample: the zoom factor supplied by the orchestration is
`scroll_delta / 40 + 1`, so the reachable scroll delta −40 yields factor 0 and
a degenerate (zero-determinant) view transform. -/
theorem C5_counterexample :
    (applyNavOps View.new [NavOp.zoomScroll (-40) (0, 0)]).viewTransform.det = 0 := by
  decide

theorem det_applyNavOps (ops : List NavOp) (v : View)
    (hv : v.viewTransform.det ≠ 0) (h : ∀ op ∈ ops, op.nondegenerate) :
    (applyNavOps v ops).viewTransform.det ≠ 0 := by
  induction ops generalizing v with
  | nil => exact hv
  | cons op rest ih =>
    have hop := h op (List.mem_cons_self op rest)
    have hrest : ∀ o ∈ rest, o.nondegenerate := fun o ho => h o (List.mem_cons_of_mem op ho)
    refine ih (applyNavOp v op) ?_ hrest
    cases op with
    | pan d =>
      simpa [applyNavOp, View.translate, det_translateTransform] using hv
    | zoomScroll y a =>
      have hf : zoom_factor_of_scroll y ≠ 0 := hop
      simp [applyNavOp, View.zoom, det_zoomTransform, hv, hf]

/-- C5 (amended): starting from the initial view, any sequence of pans and
zooms whose orchestration-supplied factors `scroll_delta/40 + 1` are all
nonzero keeps the view transform invertible; the factor 0 arising exactly at
scroll delta −40 is the only way to reach a degenerate matrix. -/
theorem C5_invertible_under_nonzero_factors (ops : List NavOp)
    (h : ∀ op ∈ ops, op.nondegenerate) :
    (applyNavOps View.new ops).viewTransform.det ≠ 0 := by
  have hv : View.new.viewTransform.det ≠ 0 := by decide
  exact det_applyNavOps ops View.new hv h

/-- C5 witness: a concrete nondegenerate session. -/
theorem C5_witness :
    (∀ op ∈ [NavOp.pan (1/2, -(1/3 : ℚ)), NavOp.zoomScroll 20 (1/4, 1/4)],
        op.nondegenerate) ∧
      (applyNavOps View.new
          [NavOp.pan (1/2, -(1/3 : ℚ)), NavOp.zoomScroll 20 (1/4, 1/4)]).viewTransform.det
        ≠ 0 :=
  ⟨by decide, C5_invertible_under_nonzero_factors _ (by decide)⟩

/-! ### Modulus algebra for the kernel proofs -/

theorem squared_magnitude_nonneg (a : ℚ × ℚ) : 0 ≤ squared_magnitude a := by
  have h1 := mul_self_nonneg a.1
  have h2 := mul_self_nonneg a.2
  simp only [squared_magnitude]
  linarith

theorem squared_magnitude_multiply (a b : ℚ × ℚ) :
    squared_magnitude (multiply a b) = squared_magnitude a * squared_magnitude b := by
  simp only [squared_magnitude, multiply]
  ring

/-- Triangle inequality in square-root-witness form: if `|a| ≤ α` and
`|b| ≤ β` (witnessed on squared magnitudes), then `|a + b| ≤ α + β`. -/
theorem squared_magnitude_add_le {a b : ℚ × ℚ} {α β : ℚ} (hα : 0 ≤ α) (hβ : 0 ≤ β)
    (ha : squared_magnitude a ≤ α ^ 2) (hb : squared_magnitude b ≤ β ^ 2) :
    squared_magnitude (cadd a b) ≤ (α + β) ^ 2 := by
  obtain ⟨a1, a2⟩ := a
  obtain ⟨b1, b2⟩ := b
  simp only [squared_magnitude, cadd] at *
  have hbn : (0 : ℚ) ≤ b1 * b1 + b2 * b2 := by nlinarith [sq_nonneg b1, sq_nonneg b2]
  have hcs : (a1 * b1 + a2 * b2) ^ 2 ≤ (a1 * a1 + a2 * a2) * (b1 * b1 + b2 * b2) := by
    nlinarith [sq_nonneg (a1 * b2 - a2 * b1)]
  have hprod : (a1 * a1 + a2 * a2) * (b1 * b1 + b2 * b2) ≤ α ^ 2 * β ^ 2 :=
    mul_le_mul ha hb hbn (sq_nonneg α)
  have hαβ : 0 ≤ α * β := mul_nonneg hα hβ
  have hS : a1 * b1 + a2 * b2 ≤ α * β := by
    nlinarith [hcs, hprod, hαβ]
  nlinarith [ha, hb, hS]

theorem cadd_csub_cancel (z w : ℚ × ℚ) : cadd (csub z w) w = z := by
  simp [cadd, csub]

theorem csub_sq_decomp (z w : ℚ × ℚ) :
    csub (multiply z z) (multiply w w) = multiply (csub z w) (cadd z w) := by
  simp only [multiply, csub, cadd, Prod.mk.injEq]
  constructor <;> ring

theorem cadd_shift (z w : ℚ × ℚ) : cadd z w = cadd (csub z w) (cadd w w) := by
  simp only [cadd, csub, Prod.mk.injEq]
  constructor <;> ring

theorem mandelbrot_step_decomp (c z w w' : ℚ × ℚ) :
    csub (mandelbrot_step c z) w' =
      cadd (csub (multiply z z) (multiply w w)) (csub (mandelbrot_step c w) w') := by
  simp only [mandelbrot_step, multiply, csub, cadd, Prod.mk.injEq]
  constructor <;> ring

/-! ### Soundness of the rounding and square-root helpers -/

theorem RND_DEN_cast_pos : (0 : ℚ) < (RND_DEN : ℚ) := by
  have : (0 : ℕ) < RND_DEN := Nat.pos_pow_of_pos 64 (by norm_num)
  exact_mod_cast this

theorem rnd_bounds (q : ℚ) : rnd q ≤ q ∧ q ≤ rnd q + 1 / (RND_DEN : ℚ) := by
  have hDZ : (0 : ℤ) < (RND_DEN : ℤ) := by exact_mod_cast RND_DEN_cast_pos
  have hDQ : (0 : ℚ) < (RND_DEN : ℚ) := RND_DEN_cast_pos
  have hdenZ : (0 : ℤ) < (q.den : ℤ) := Int.natCast_pos.mpr q.pos
  have hdenQ : (0 : ℚ) < (q.den : ℚ) := by exact_mod_cast q.pos
  set a : ℤ := q.num * (RND_DEN : ℤ) with ha
  set t : ℤ := a / (q.den : ℤ) with ht
  have hmod : (q.den : ℤ) * t + a % (q.den : ℤ) = a := Int.ediv_add_emod a (q.den : ℤ)
  have h0 : 0 ≤ a % (q.den : ℤ) := Int.emod_nonneg a (ne_of_gt hdenZ)
  have h1 : a % (q.den : ℤ) < (q.den : ℤ) := Int.emod_lt_of_pos a hdenZ
  have hrnd : rnd q = (t : ℚ) / (RND_DEN : ℚ) := by
    rw [rnd, Rat.mkRat_eq_div]
  have hq : q = (q.num : ℚ) / (q.den : ℚ) := (Rat.num_div_den q).symm
  have hcomm : t * (q.den : ℤ) = (q.den : ℤ) * t := mul_comm _ _
  have hZ1 : t * (q.den : ℤ) ≤ q.num * (RND_DEN : ℤ) := by omega
  have hexp : (t + 1) * (q.den : ℤ) = (q.den : ℤ) * t + (q.den : ℤ) := by ring
  have hZ2 : q.num * (RND_DEN : ℤ) ≤ (t + 1) * (q.den : ℤ) := by omega
  constructor
  · rw [hrnd]
    conv_rhs => rw [hq]
    rw [div_le_div_iff₀ hDQ hdenQ]
    exact_mod_cast hZ1
  · have hsum : rnd q + 1 / (RND_DEN : ℚ) = ((t + 1 : ℤ) : ℚ) / (RND_DEN : ℚ) := by
      rw [hrnd]
      push_cast
      ring
    rw [hsum]
    conv_lhs => rw [hq]
    rw [div_le_div_iff₀ hdenQ hDQ]
    exact_mod_cast hZ2

theorem rnd_up_bounds (q : ℚ) : q ≤ rnd_up q ∧ rnd_up q ≤ q + 1 / (RND_DEN : ℚ) := by
  obtain ⟨h1, h2⟩ := rnd_bounds (-q)
  constructor
  · simp only [rnd_up]
    linarith
  · simp only [rnd_up]
    linarith

theorem isqrt_iter_sound (n : ℕ) :
    ∀ (fuel g : ℕ), n < (g + 1) ^ 2 → n < (isqrt_iter n fuel g + 1) ^ 2 := by
  intro fuel
  induction fuel with
  | zero =>
    intro g h
    simpa [isqrt_iter] using h
  | succ fuel ih =>
    intro g h
    by_cases hlt : (g + n / g) / 2 < g
    · have hstep : isqrt_iter n (fuel + 1) g = isqrt_iter n fuel ((g + n / g) / 2) := by
        simp [isqrt_iter, hlt]
      rw [hstep]
      apply ih
      have hg : 0 < g := by
        rcases Nat.eq_zero_or_pos g with rfl | hg
        · simp at hlt
        · exact hg
      have hdm := Nat.div_add_mod n g
      have hr : n % g < g := Nat.mod_lt _ hg
      have hdm2 := Nat.div_add_mod (g + n / g) 2
      have hs : (g + n / g) % 2 < 2 := Nat.mod_lt _ (by norm_num)
      zify at hdm hr hdm2 hs ⊢
      have hQ0 : 0 ≤ (n : ℤ) / (g : ℤ) :=
        Int.ediv_nonneg (Int.natCast_nonneg n) (Int.natCast_nonneg g)
      have hmono : (g : ℤ) + (n : ℤ) / (g : ℤ) + 1 ≤
          2 * (((g : ℤ) + (n : ℤ) / (g : ℤ)) / 2) + 2 := by linarith [hdm2, hs]
      have hnn : (0 : ℤ) ≤ (g : ℤ) + (n : ℤ) / (g : ℤ) + 1 := by positivity
      have e2 : ((g : ℤ) + (n : ℤ) / (g : ℤ) + 1) ^ 2 ≤
          (2 * (((g : ℤ) + (n : ℤ) / (g : ℤ)) / 2) + 2) ^ 2 :=
        pow_le_pow_left₀ hnn hmono 2
      have e3 : 4 * (g : ℤ) * ((n : ℤ) / (g : ℤ) + 1) ≤
          ((g : ℤ) + (n : ℤ) / (g : ℤ) + 1) ^ 2 := by
        nlinarith [sq_nonneg ((g : ℤ) - (n : ℤ) / (g : ℤ) - 1)]
      have e4 : 4 * ((n : ℤ) + 1) ≤ 4 * (g : ℤ) * ((n : ℤ) / (g : ℤ) + 1) := by
        nlinarith [hdm, hr]
      nlinarith [e2, e3, e4]
    · have hstep : isqrt_iter n (fuel + 1) g = g := by
        simp [isqrt_iter, hlt]
      rw [hstep]
      exact h

theorem nat_sqrt_ub_sound (n : ℕ) : n < nat_sqrt_ub n ^ 2 := by
  have hstart : n < (n + 1) ^ 2 := by nlinarith [sq_nonneg n]
  have := isqrt_iter_sound n n n hstart
  simpa [nat_sqrt_ub] using this

theorem sqrt_ub_nonneg (q : ℚ) : 0 ≤ sqrt_ub q :=
  div_nonneg (Nat.cast_nonneg _) (Nat.cast_nonneg _)

theorem le_sqrt_ub_sq {q : ℚ} (hq : 0 ≤ q) : q ≤ sqrt_ub q ^ 2 := by
  have hS : (0 : ℚ) < (SQRT_SCALE : ℚ) := by
    have : (0 : ℕ) < SQRT_SCALE := Nat.pos_pow_of_pos 32 (by norm_num)
    exact_mod_cast this
  have hden : (0 : ℚ) < (q.den : ℚ) := by exact_mod_cast q.pos
  rw [sqrt_ub]
  set N : ℕ := q.num.toNat with hN
  set K : ℕ := N * SQRT_SCALE ^ 2 with hK
  have hnum : ((N : ℤ) : ℚ) = (q.num : ℚ) := by
    rw [hN, Int.toNat_of_nonneg (Rat.num_nonneg.mpr hq)]
  have hq_eq : q = (N : ℚ) / (q.den : ℚ) := by
    conv_lhs => rw [← Rat.num_div_den q]
    rw [← hnum]
    norm_num
  have hKq : (K : ℚ) = (N : ℚ) * (SQRT_SCALE : ℚ) ^ 2 := by
    rw [hK]
    push_cast
    ring
  have hfloor : (K : ℚ) < (q.den : ℚ) * ((K / q.den : ℕ) + 1 : ℚ) := by
    have hdm := Nat.div_add_mod K q.den
    have hr : K % q.den < q.den := Nat.mod_lt _ q.pos
    have hZ : K < q.den * (K / q.den + 1) := by
      have hexp : q.den * (K / q.den + 1) = q.den * (K / q.den) + q.den := by ring
      omega
    have := (Nat.cast_lt (α := ℚ)).mpr hZ
    push_cast at this
    linarith
  have hmB : ((K / q.den : ℕ) + 1 : ℚ) ≤ ((nat_sqrt_ub (K / q.den) : ℕ) : ℚ) ^ 2 := by
    have hZ : K / q.den + 1 ≤ nat_sqrt_ub (K / q.den) ^ 2 :=
      Nat.succ_le_of_lt (nat_sqrt_ub_sound (K / q.den))
    have := (Nat.cast_le (α := ℚ)).mpr hZ
    push_cast at this
    linarith
  rw [div_pow, le_div_iff₀ (pow_pos hS 2)]
  set d : ℚ := (q.den : ℚ) with hd
  have hqK : q * (SQRT_SCALE : ℚ) ^ 2 = (K : ℚ) / d := by
    rw [hq_eq, hKq]
    ring
  have hq2 : q * (SQRT_SCALE : ℚ) ^ 2 < ((K / q.den : ℕ) + 1 : ℚ) := by
    rw [hqK, div_lt_iff₀ hden]
    nlinarith [hfloor]
  linarith [hq2, hmB]

/-! ### Soundness of the certified orbit enclosure -/

theorem certStep_w (cert : Cert) :
    (certStep cert).w =
      (rnd (mandelbrot_step C_IN cert.w).1, rnd (mandelbrot_step C_IN cert.w).2) := rfl

theorem certStep_e (cert : Cert) :
    (certStep cert).e =
      rnd_up (cert.e * (2 * sqrt_ub (squared_magnitude cert.w) + cert.e) + RND_ERR) := rfl

theorem RND_ERR_nonneg : 0 ≤ RND_ERR := by
  have := RND_DEN_cast_pos
  rw [RND_ERR]
  positivity

theorem rnd_modulus {u : ℚ × ℚ} :
    squared_magnitude (csub u (rnd u.1, rnd u.2)) ≤ RND_ERR ^ 2 := by
  obtain ⟨ha1, ha2⟩ := rnd_bounds u.1
  obtain ⟨hb1, hb2⟩ := rnd_bounds u.2
  have hD := RND_DEN_cast_pos
  have hinv : (0 : ℚ) < 1 / (RND_DEN : ℚ) := by positivity
  simp only [squared_magnitude, csub]
  have e1 : (u.1 - rnd u.1) * (u.1 - rnd u.1) ≤ (1 / (RND_DEN : ℚ)) ^ 2 := by nlinarith
  have e2 : (u.2 - rnd u.2) * (u.2 - rnd u.2) ≤ (1 / (RND_DEN : ℚ)) ^ 2 := by nlinarith
  have e3 : 2 * (1 / (RND_DEN : ℚ)) ^ 2 ≤ RND_ERR ^ 2 := by
    have hexp : RND_ERR ^ 2 = 9 / 4 * (1 / (RND_DEN : ℚ)) ^ 2 := by
      rw [RND_ERR]
      field_simp
      ring
    nlinarith [hexp, sq_nonneg (1 / (RND_DEN : ℚ))]
  linarith

theorem certStep_sound {z : ℚ × ℚ} {cert : Cert} (he : 0 ≤ cert.e)
    (hz : squared_magnitude (csub z cert.w) ≤ cert.e ^ 2) :
    0 ≤ (certStep cert).e ∧
      squared_magnitude (csub (mandelbrot_step C_IN z) (certStep cert).w) ≤
        (certStep cert).e ^ 2 := by
  set w := cert.w with hw
  set e := cert.e with hev
  set s := sqrt_ub (squared_magnitude w) with hs
  have hs0 : 0 ≤ s := sqrt_ub_nonneg _
  have hsw : squared_magnitude w ≤ s ^ 2 := le_sqrt_ub_sq (squared_magnitude_nonneg w)
  have hzw : squared_magnitude (cadd z w) ≤ (e + 2 * s) ^ 2 := by
    rw [cadd_shift z w]
    have h2w : squared_magnitude (cadd w w) ≤ (2 * s) ^ 2 := by
      have heq : squared_magnitude (cadd w w) = 4 * squared_magnitude w := by
        simp only [squared_magnitude, cadd]
        ring
      rw [heq]
      nlinarith [hsw]
    exact squared_magnitude_add_le he (by linarith) hz h2w
  have hsq : squared_magnitude (csub (multiply z z) (multiply w w)) ≤
      (e * (2 * s + e)) ^ 2 := by
    rw [csub_sq_decomp, squared_magnitude_multiply]
    have hmul := mul_le_mul hz hzw (squared_magnitude_nonneg _) (sq_nonneg e)
    calc squared_magnitude (csub z w) * squared_magnitude (cadd z w)
        ≤ e ^ 2 * (e + 2 * s) ^ 2 := hmul
      _ = (e * (2 * s + e)) ^ 2 := by ring
  have hρ : squared_magnitude
      (csub (mandelbrot_step C_IN w) ((certStep cert).w)) ≤ RND_ERR ^ 2 := by
    rw [certStep_w]
    exact rnd_modulus
  have hE0 : 0 ≤ e * (2 * s + e) + RND_ERR := by
    have h1 : 0 ≤ e * (2 * s + e) := mul_nonneg he (by linarith)
    linarith [RND_ERR_nonneg]
  have hcombined : squared_magnitude (csub (mandelbrot_step C_IN z) (certStep cert).w) ≤
      (e * (2 * s + e) + RND_ERR) ^ 2 := by
    rw [mandelbrot_step_decomp C_IN z w (certStep cert).w]
    exact squared_magnitude_add_le (mul_nonneg he (by linarith)) RND_ERR_nonneg hsq hρ
  obtain ⟨hup, _⟩ := rnd_up_bounds (e * (2 * s + e) + RND_ERR)
  have hE' : (certStep cert).e = rnd_up (e * (2 * s + e) + RND_ERR) := certStep_e cert
  constructor
  · rw [hE']
    linarith
  · rw [hE']
    have hsq2 : (e * (2 * s + e) + RND_ERR) ^ 2 ≤ rnd_up (e * (2 * s + e) + RND_ERR) ^ 2 :=
      pow_le_pow_left₀ hE0 hup 2
    linarith [hcombined]

theorem certOk_sound {z : ℚ × ℚ} {cert : Cert} (he : 0 ≤ cert.e)
    (hz : squared_magnitude (csub z cert.w) ≤ cert.e ^ 2)
    (hok : certOk cert = true) : squared_magnitude z ≤ 4 := by
  have hle : (sqrt_ub (squared_magnitude cert.w) + cert.e) ^ 2 ≤ 4 :=
    of_decide_eq_true hok
  have hzz : squared_magnitude z ≤ (cert.e + sqrt_ub (squared_magnitude cert.w)) ^ 2 := by
    have hrw : z = cadd (csub z cert.w) cert.w := (cadd_csub_cancel z cert.w).symm
    calc squared_magnitude z
        = squared_magnitude (cadd (csub z cert.w) cert.w) := by rw [← hrw]
      _ ≤ (cert.e + sqrt_ub (squared_magnitude cert.w)) ^ 2 :=
          squared_magnitude_add_le he (sqrt_ub_nonneg _) hz
            (le_sqrt_ub_sq (squared_magnitude_nonneg _))
  have hcomm : (cert.e + sqrt_ub (squared_magnitude cert.w)) ^ 2 =
      (sqrt_ub (squared_magnitude cert.w) + cert.e) ^ 2 := by ring
  linarith [hzz, hcomm.le, hcomm.ge, hle]

theorem csub_triangle (z w p : ℚ × ℚ) : csub z p = cadd (csub z w) (csub w p) := by
  simp only [csub, cadd, Prod.mk.injEq]
  constructor <;> ring

theorem certFinal_sound {z : ℚ × ℚ} {cert : Cert} (he : 0 ≤ cert.e)
    (hz : squared_magnitude (csub z cert.w) ≤ cert.e ^ 2)
    (hfin : certFinal cert = true) :
    squared_magnitude (csub z P_CENTER) ≤ DISK_RADIUS ^ 2 := by
  have hprop : cert.e ≤ DISK_RADIUS ∧
      squared_magnitude (csub cert.w P_CENTER) ≤ (DISK_RADIUS - cert.e) ^ 2 :=
    of_decide_eq_true hfin
  obtain ⟨her, hwp⟩ := hprop
  have := squared_magnitude_add_le he (by linarith : (0 : ℚ) ≤ DISK_RADIUS - cert.e) hz hwp
  rw [← csub_triangle z cert.w P_CENTER] at this
  have hsum : cert.e + (DISK_RADIUS - cert.e) = DISK_RADIUS := by ring
  rw [hsum] at this
  exact this

theorem mandelbrot_orbit_from_shift (c z : ℚ × ℚ) :
    ∀ n, mandelbrot_orbit_from c z (n + 1) =
      mandelbrot_orbit_from c (mandelbrot_step c z) n := by
  intro n
  induction n with
  | zero => rfl
  | succ n ih =>
    show mandelbrot_step c (mandelbrot_orbit_from c z (n + 1)) =
      mandelbrot_step c (mandelbrot_orbit_from c (mandelbrot_step c z) n)
    rw [ih]

theorem certRun_sound :
    ∀ (k : ℕ) (cert : Cert) (z : ℚ × ℚ), 0 ≤ cert.e →
      squared_magnitude (csub z cert.w) ≤ cert.e ^ 2 → certRun k cert = true →
      (∀ i < k, squared_magnitude (mandelbrot_orbit_from C_IN z i) ≤ 4) ∧
        squared_magnitude (csub (mandelbrot_orbit_from C_IN z k) P_CENTER) ≤
          DISK_RADIUS ^ 2 := by
  intro k
  induction k with
  | zero =>
    intro cert z he hz hrun
    exact ⟨fun i hi => absurd hi (Nat.not_lt_zero i), certFinal_sound he hz hrun⟩
  | succ k ih =>
    intro cert z he hz hrun
    rw [certRun, Bool.and_eq_true] at hrun
    obtain ⟨hok, hrest⟩ := hrun
    obtain ⟨he', hz'⟩ := certStep_sound he hz
    obtain ⟨hall, hfinal⟩ := ih (certStep cert) (mandelbrot_step C_IN z) he' hz' hrest
    constructor
    · intro i hi
      match i with
      | 0 => exact certOk_sound he hz hok
      | Nat.succ j =>
        rw [mandelbrot_orbit_from_shift]
        exact hall j (by omega)
    · rw [mandelbrot_orbit_from_shift]
      exact hfinal

theorem mandelbrot_step_center_decomp (c z p : ℚ × ℚ) :
    csub (mandelbrot_step c z) p =
      cadd (cadd (multiply (csub z p) (csub z p)) (multiply (cadd p p) (csub z p)))
        (csub (mandelbrot_step c p) p) := by
  simp only [mandelbrot_step, multiply, csub, cadd, Prod.mk.injEq]
  constructor <;> ring

/-- The disk of radius `DISK_RADIUS` around `P_CENTER` is forward-invariant
under the Mandelbrot step at `C_IN`: `P_CENTER` approximates the attracting
fixed point well enough that `r² + 2|p̃|r + |p̃² + c − p̃| ≤ r`. -/
theorem disk_step_invariant {z : ℚ × ℚ}
    (h : squared_magnitude (csub z P_CENTER) ≤ DISK_RADIUS ^ 2) :
    squared_magnitude (csub (mandelbrot_step C_IN z) P_CENTER) ≤ DISK_RADIUS ^ 2 := by
  have hP2 : squared_magnitude (cadd P_CENTER P_CENTER) ≤ (2 * (4927/10000 : ℚ)) ^ 2 := by
    decide
  have hQ0 : squared_magnitude (csub (mandelbrot_step C_IN P_CENTER) P_CENTER) ≤
      ((1/10000000 : ℚ)) ^ 2 := by decide
  have hfin : DISK_RADIUS ^ 2 + 2 * (4927/10000 : ℚ) * DISK_RADIUS + 1/10000000 ≤
      DISK_RADIUS := by decide
  have h1 : squared_magnitude (multiply (csub z P_CENTER) (csub z P_CENTER)) ≤
      (DISK_RADIUS ^ 2) ^ 2 := by
    rw [squared_magnitude_multiply]
    nlinarith [h, squared_magnitude_nonneg (csub z P_CENTER)]
  have h2 : squared_magnitude (multiply (cadd P_CENTER P_CENTER) (csub z P_CENTER)) ≤
      (2 * (4927/10000 : ℚ) * DISK_RADIUS) ^ 2 := by
    rw [squared_magnitude_multiply]
    calc squared_magnitude (cadd P_CENTER P_CENTER) * squared_magnitude (csub z P_CENTER)
        ≤ (2 * (4927/10000 : ℚ)) ^ 2 * DISK_RADIUS ^ 2 :=
          mul_le_mul hP2 h (squared_magnitude_nonneg _) (sq_nonneg _)
      _ = (2 * (4927/10000 : ℚ) * DISK_RADIUS) ^ 2 := by ring
  have h12 : squared_magnitude
      (cadd (multiply (csub z P_CENTER) (csub z P_CENTER))
        (multiply (cadd P_CENTER P_CENTER) (csub z P_CENTER))) ≤
      (DISK_RADIUS ^ 2 + 2 * (4927/10000 : ℚ) * DISK_RADIUS) ^ 2 :=
    squared_magnitude_add_le (sq_nonneg DISK_RADIUS) (by norm_num [DISK_RADIUS]) h1 h2
  have htot : squared_magnitude (csub (mandelbrot_step C_IN z) P_CENTER) ≤
      (DISK_RADIUS ^ 2 + 2 * (4927/10000 : ℚ) * DISK_RADIUS + 1/10000000) ^ 2 := by
    rw [mandelbrot_step_center_decomp C_IN z P_CENTER]
    exact squared_magnitude_add_le (by norm_num [DISK_RADIUS]) (by norm_num) h12 hQ0
  have hX0 : (0 : ℚ) ≤ DISK_RADIUS ^ 2 + 2 * (4927/10000 : ℚ) * DISK_RADIUS + 1/10000000 := by
    norm_num [DISK_RADIUS]
  have := pow_le_pow_left₀ hX0 hfin 2
  linarith

/-- Membership in the invariant disk bounds the squared magnitude well below
the escape threshold. -/
theorem disk_no_escape {z : ℚ × ℚ}
    (h : squared_magnitude (csub z P_CENTER) ≤ DISK_RADIUS ^ 2) :
    squared_magnitude z ≤ 4 := by
  have hP : squared_magnitude P_CENTER ≤ (4927/10000 : ℚ) ^ 2 := by decide
  have hbound : squared_magnitude z ≤ (DISK_RADIUS + 4927/10000 : ℚ) ^ 2 := by
    have hrw : z = cadd (csub z P_CENTER) P_CENTER := (cadd_csub_cancel z P_CENTER).symm
    calc squared_magnitude z
        = squared_magnitude (cadd (csub z P_CENTER) P_CENTER) := by rw [← hrw]
      _ ≤ (DISK_RADIUS + 4927/10000 : ℚ) ^ 2 :=
          squared_magnitude_add_le (by norm_num [DISK_RADIUS]) (by norm_num) h hP
  have hfour : (DISK_RADIUS + 4927/10000 : ℚ) ^ 2 ≤ 4 := by decide
  linarith

/-- The exact Mandelbrot orbit of the interior point (-0.5, 0.5) never has
squared magnitude above 4: certified numerically for the first `CERT_STEPS`
steps, and by the invariant disk afterwards. -/
theorem orbit_C_IN_bounded :
    ∀ n, squared_magnitude (mandelbrot_orbit_from C_IN C_IN n) ≤ 4 := by
  have hrun : certRun CERT_STEPS ⟨C_IN, 0⟩ = true := by
    set_option maxRecDepth 100000 in decide
  have hz0 : squared_magnitude (csub C_IN C_IN) ≤ ((⟨C_IN, 0⟩ : Cert).e) ^ 2 := by decide
  have he0 : (0 : ℚ) ≤ (⟨C_IN, 0⟩ : Cert).e := le_refl 0
  obtain ⟨hlt, hdisk⟩ := certRun_sound CERT_STEPS ⟨C_IN, 0⟩ C_IN he0 hz0 hrun
  have hdiskall : ∀ k,
      squared_magnitude (csub (mandelbrot_orbit_from C_IN C_IN (CERT_STEPS + k)) P_CENTER) ≤
        DISK_RADIUS ^ 2 := by
    intro k
    induction k with
    | zero => exact hdisk
    | succ k ih => exact disk_step_invariant ih
  intro n
  rcases lt_or_ge n CERT_STEPS with hn | hn
  · exact hlt n hn
  · obtain ⟨k, rfl⟩ : ∃ k, n = CERT_STEPS + k := ⟨n - CERT_STEPS, by omega⟩
    exact disk_no_escape (hdiskall k)

theorem mandelbrot_go_zero (c : ℚ × ℚ) :
    ∀ (k : ℕ) (z : ℚ × ℚ),
      (∀ n, squared_magnitude (mandelbrot_orbit_from c z n) ≤ 4) →
      mandelbrot_go c k z = 0 := by
  intro k
  induction k with
  | zero =>
    intro z _
    rfl
  | succ k ih =>
    intro z h
    have h0 : ¬ 4 < squared_magnitude z := not_lt.mpr (h 0)
    rw [mandelbrot_go, if_neg h0]
    refine ih (mandelbrot_step c z) (fun n => ?_)
    rw [← mandelbrot_orbit_from_shift]
    exact h (n + 1)

theorem mandelbrot_go_out (m : ℕ) : mandelbrot_go C_OUT (m + 4) C_OUT = m + 1 := by
  have h0 : ¬ 4 < squared_magnitude C_OUT := by decide
  have h1 : ¬ 4 < squared_magnitude (mandelbrot_step C_OUT C_OUT) := by decide
  have h2 : ¬ 4 < squared_magnitude
      (mandelbrot_step C_OUT (mandelbrot_step C_OUT C_OUT)) := by decide
  have h3 : 4 < squared_magnitude
      (mandelbrot_step C_OUT (mandelbrot_step C_OUT (mandelbrot_step C_OUT C_OUT))) := by
    decide
  simp only [mandelbrot_go]
  rw [if_neg h0, if_neg h1, if_neg h2, if_pos h3]

/-- C8: the Mandelbrot kernel iterates `z ← z² + c` from `z = c` until
`squared_magnitude(z) > 4.0` or the budget is exhausted; for the interior
point (-0.5, 0.5) it reports escape count 0 (for every budget — the exact
orbit never escapes), and for the exterior point (0.5, 0.6) (which escapes at
the fourth check) it reports a positive normalized count. -/
theorem C8_mandelbrot_interior_exterior (budget : ℕ) (hbudget : 4 ≤ budget) :
    mandelbrot_iterations budget C_IN = 0 ∧ 0 < mandelbrot_iterations budget C_OUT := by
  constructor
  · have hgo : mandelbrot_go C_IN budget C_IN = 0 :=
      mandelbrot_go_zero C_IN budget C_IN orbit_C_IN_bounded
    rw [mandelbrot_iterations, hgo]
    norm_num
  · obtain ⟨m, rfl⟩ : ∃ m, budget = m + 4 := ⟨budget - 4, by omega⟩
    rw [mandelbrot_iterations, mandelbrot_go_out m]
    apply div_pos
    · have : (0 : ℕ) < m + 1 := Nat.succ_pos m
      exact_mod_cast this
    · have : (0 : ℕ) < m + 4 := by omega
      exact_mod_cast this

/-- C8 witness: the two kernel reports at the concrete budget 100. -/
theorem C8_witness :
    4 ≤ 100 ∧
      (mandelbrot_iterations 100 C_IN = 0 ∧ 0 < mandelbrot_iterations 100 C_OUT) :=
  ⟨by norm_num, C8_mandelbrot_interior_exterior 100 (by norm_num)⟩

/-- C9: starting from (-2.0, 5.0), the Newton kernel's fixed number of
iterations of `z ← z − eval_poly(z, COEFFS) * inverse(eval_poly(z,
DERIVATIVE_COEFFS))` for the cubic `z³ − 1` converges to `(-0.5, √3/2)` — one
of the three cube roots of unity — within tolerance 1e-4 in each component. -/
theorem C9_newton_convergence :
    |((newton_iterate (-2, 5)).1 : ℝ) - (-(1/2 : ℝ))| ≤ 1/10^4 ∧
      |((newton_iterate (-2, 5)).2 : ℝ) - Real.sqrt 3 / 2| ≤ 1/10^4 := by
  have hx : ((newton_iterate (-2, 5)).1 + 1/2) ^ 2 ≤ ((1 : ℚ)/10^4) ^ 2 := by
    set_option maxRecDepth 100000 in decide
  have hy1 : (0 : ℚ) ≤ (newton_iterate (-2, 5)).2 - 1/10^4 := by
    set_option maxRecDepth 100000 in decide
  have hy2 : (((newton_iterate (-2, 5)).2 - 1/10^4) * 2) ^ 2 ≤ 3 := by
    set_option maxRecDepth 100000 in decide
  have hy3 : (3 : ℚ) ≤ (((newton_iterate (-2, 5)).2 + 1/10^4) * 2) ^ 2 := by
    set_option maxRecDepth 100000 in decide
  have hxR := (Rat.cast_le (K := ℝ)).mpr hx
  have hy1R := (Rat.cast_le (K := ℝ)).mpr hy1
  have hy2R := (Rat.cast_le (K := ℝ)).mpr hy2
  have hy3R := (Rat.cast_le (K := ℝ)).mpr hy3
  push_cast at hxR hy1R hy2R hy3R
  constructor
  · have ht : (0 : ℝ) < 1/10^4 := by norm_num
    rw [abs_le]
    constructor <;> nlinarith [hxR, ht]
  · have hupper : Real.sqrt 3 ≤ (((newton_iterate (-2, 5)).2 : ℝ) + 1/10^4) * 2 := by
      have h2 : (0 : ℝ) ≤ (((newton_iterate (-2, 5)).2 : ℝ) + 1/10^4) * 2 := by
        nlinarith [hy1R]
      calc Real.sqrt 3
          ≤ Real.sqrt (((((newton_iterate (-2, 5)).2 : ℝ) + 1/10^4) * 2) ^ 2) :=
            Real.sqrt_le_sqrt hy3R
        _ = (((newton_iterate (-2, 5)).2 : ℝ) + 1/10^4) * 2 := Real.sqrt_sq h2
    have hlower : (((newton_iterate (-2, 5)).2 : ℝ) - 1/10^4) * 2 ≤ Real.sqrt 3 := by
      have h2 : (0 : ℝ) ≤ (((newton_iterate (-2, 5)).2 : ℝ) - 1/10^4) * 2 := by
        nlinarith [hy1R]
      calc (((newton_iterate (-2, 5)).2 : ℝ) - 1/10^4) * 2
          = Real.sqrt (((((newton_iterate (-2, 5)).2 : ℝ) - 1/10^4) * 2) ^ 2) :=
            (Real.sqrt_sq h2).symm
        _ ≤ Real.sqrt 3 := Real.sqrt_le_sqrt hy2R
    rw [abs_le]
    constructor
    · linarith [hupper]
    · linarith [hlower]

end FractalExplorer
